import Mathlib

/-!
Verification of the range-decomposition and animation-frame core of
`fenwick-illustrations` (two Python scripts, `animate.py` and
`illustrate.py`).

Positions are modelled as `Int` (Python integers are unbounded and may be
negative).  Python's lowest-set-bit expression `x & -x` is modelled by an
executable function `natLsb` on the absolute value; the theorem
`lsb_eq_land` proves it equal to `Int.land x (-x)`, the direct
translation of the source expression (the executable form is needed so
that concrete runs reduce inside the kernel).

The two `while` loops of `into_parts` (`animate.py` lines 31-41) and
`Drawer._into_parts` (`illustrate.py` lines 132-149) are modelled with an
explicit fuel argument; the top-level wrappers pass fuel that provably
exceeds the number of loop iterations (each iteration strictly decreases
`r.toNat`, resp. strictly increases the left cursor towards the bound),
so the fuel-exhaustion branch is unreachable there.
-/

/-- One step of the trailing-zero recursion computing the lowest set bit of a
natural number: `0` for `0`, `1` for odd numbers, twice the value of `n / 2`
otherwise.  The first argument is fuel; `natLsb` supplies enough. -/
def natLsbGo : Nat → Nat → Nat
  | 0, _ => 0
  | fuel + 1, n => if n = 0 then 0 else if n % 2 = 1 then 1 else 2 * natLsbGo fuel (n / 2)

/-- Lowest set bit of a natural number (`0` for `0`). -/
def natLsb (n : Nat) : Nat := natLsbGo n n

/-- `lsb` from `animate.py` (identical to `Drawer._lsb` in `illustrate.py`):
Python `x & -x`.  Executable form; `lsb_eq_land` proves it equal to the
source expression `Int.land x (-x)`.  As the source comment notes, it
returns 0 for `x == 0`. -/
def lsb (x : Int) : Int := (natLsb x.natAbs : Int)

theorem natLsbGo_zero (fuel : Nat) : natLsbGo fuel 0 = 0 := by
  cases fuel <;> simp [natLsbGo]

theorem natLsbGo_congr : ∀ f g n : Nat, n ≤ f → n ≤ g → natLsbGo f n = natLsbGo g n := by
  intro f
  induction f with
  | zero =>
    intro g n hf _
    interval_cases n
    rw [natLsbGo_zero, natLsbGo_zero]
  | succ f ih =>
    intro g n hf hg
    rcases Nat.eq_zero_or_pos n with h0 | h0
    · subst h0; rw [natLsbGo_zero, natLsbGo_zero]
    obtain ⟨g', rfl⟩ : ∃ g', g = g' + 1 := ⟨g - 1, by omega⟩
    show natLsbGo (f + 1) n = natLsbGo (g' + 1) n
    rw [natLsbGo, natLsbGo]
    have hn : ¬ n = 0 := by omega
    simp only [hn, if_false]
    by_cases hodd : n % 2 = 1
    · simp [hodd]
    · have hlt : n / 2 < n := Nat.div_lt_self h0 (by norm_num)
      simp only [hodd, if_false]
      rw [ih g' (n / 2) (by omega) (by omega)]

theorem natLsb_of_odd {n : Nat} (h : n % 2 = 1) : natLsb n = 1 := by
  have h0 : 0 < n := by omega
  obtain ⟨f, rfl⟩ : ∃ f, n = f + 1 := ⟨n - 1, by omega⟩
  show natLsbGo (f + 1) (f + 1) = 1
  rw [natLsbGo]
  simp [h]

theorem natLsb_of_even {n : Nat} (h : n % 2 = 0) (h0 : 0 < n) :
    natLsb n = 2 * natLsb (n / 2) := by
  obtain ⟨f, rfl⟩ : ∃ f, n = f + 1 := ⟨n - 1, by omega⟩
  show natLsbGo (f + 1) (f + 1) = 2 * natLsb ((f + 1) / 2)
  rw [natLsbGo]
  have h1 : ¬ (f + 1) = 0 := by omega
  have h2 : ¬ (f + 1) % 2 = 1 := by omega
  simp only [h1, if_false, h2]
  rw [natLsbGo_congr f ((f + 1) / 2) ((f + 1) / 2) (by omega) (le_refl _)]
  rfl

/-- Core properties of `natLsb` on positive numbers: positive, divides its
argument, and is a power of two. -/
theorem natLsb_basic : ∀ n : Nat, 0 < n →
    0 < natLsb n ∧ natLsb n ∣ n ∧ ∃ k : Nat, natLsb n = 2 ^ k := by
  intro n
  induction n using Nat.strong_induction_on with
  | _ n ih =>
    intro h0
    by_cases hodd : n % 2 = 1
    · rw [natLsb_of_odd hodd]
      exact ⟨by norm_num, one_dvd n, 0, rfl⟩
    · have heven : n % 2 = 0 := by omega
      have hhalf : 0 < n / 2 := by omega
      have hlt : n / 2 < n := Nat.div_lt_self h0 (by norm_num)
      obtain ⟨hpos, hdvd, k, hk⟩ := ih (n / 2) hlt hhalf
      rw [natLsb_of_even heven h0]
      refine ⟨by omega, ?_, k + 1, by rw [hk]; ring⟩
      obtain ⟨c, hc⟩ := hdvd
      have hstep : 2 * natLsb (n / 2) * c = n := by
        calc 2 * natLsb (n / 2) * c = 2 * (natLsb (n / 2) * c) := by ring
        _ = 2 * (n / 2) := by rw [← hc]
        _ = n := by omega
      exact ⟨c, hstep.symm⟩

theorem natLsb_pos {n : Nat} (h : 0 < n) : 0 < natLsb n := (natLsb_basic n h).1

theorem natLsb_dvd {n : Nat} (h : 0 < n) : natLsb n ∣ n := (natLsb_basic n h).2.1

theorem natLsb_pow2 {n : Nat} (h : 0 < n) : ∃ k : Nat, natLsb n = 2 ^ k :=
  (natLsb_basic n h).2.2

theorem natLsb_le {n : Nat} (h : 0 < n) : natLsb n ≤ n :=
  Nat.le_of_dvd h (natLsb_dvd h)

/-- Adding a multiple of `2 ^ k` below a number smaller than `2 ^ k` does not
change the lowest set bit. -/
theorem natLsb_add : ∀ k a b : Nat, 2 ^ k ∣ a → 0 < b → b < 2 ^ k →
    natLsb (a + b) = natLsb b := by
  intro k
  induction k with
  | zero => intro a b _ hb hb'; omega
  | succ k ih =>
    intro a b ha hb hb'
    obtain ⟨c, rfl⟩ := ha
    have hmul : 2 ^ (k + 1) * c = 2 * (2 ^ k * c) := by ring
    have hpow : 2 ^ (k + 1) = 2 * 2 ^ k := by ring
    by_cases hodd : b % 2 = 1
    · rw [natLsb_of_odd (by omega : (2 ^ (k + 1) * c + b) % 2 = 1), natLsb_of_odd hodd]
    · have heven : b % 2 = 0 := by omega
      obtain ⟨b', rfl⟩ : ∃ b', b = 2 * b' := ⟨b / 2, by omega⟩
      have hb'pos : 0 < b' := by omega
      have hsum_even : (2 ^ (k + 1) * c + 2 * b') % 2 = 0 := by omega
      rw [natLsb_of_even hsum_even (by omega), natLsb_of_even (by omega : 2 * b' % 2 = 0) hb]
      have hdiv : (2 ^ (k + 1) * c + 2 * b') / 2 = 2 ^ k * c + b' := by omega
      have hdiv' : 2 * b' / 2 = b' := by omega
      rw [hdiv, hdiv', ih (2 ^ k * c) b' ⟨c, rfl⟩ hb'pos (by omega)]

/-- Complementing inside a power of two preserves the lowest set bit. -/
theorem natLsb_two_pow_sub : ∀ k d : Nat, 0 < d → d < 2 ^ k →
    natLsb (2 ^ k - d) = natLsb d := by
  intro k
  induction k with
  | zero => intro d hd hd'; omega
  | succ k ih =>
    intro d hd hd'
    have h2 : 2 ^ (k + 1) = 2 * 2 ^ k := by ring
    by_cases hodd : d % 2 = 1
    · rw [natLsb_of_odd (by omega : (2 ^ (k + 1) - d) % 2 = 1), natLsb_of_odd hodd]
    · obtain ⟨d', rfl⟩ : ∃ d', d = 2 * d' := ⟨d / 2, by omega⟩
      have hd'pos : 0 < d' := by omega
      have hd'lt : d' < 2 ^ k := by omega
      rw [natLsb_of_even (by omega) (by omega), natLsb_of_even (by omega : 2 * d' % 2 = 0) hd]
      have hdiv : (2 ^ (k + 1) - 2 * d') / 2 = 2 ^ k - d' := by omega
      have hdiv' : 2 * d' / 2 = d' := by omega
      rw [hdiv, hdiv', ih d' hd'pos hd'lt]

/-- Key stepping fact for the left-cursor walk: if `b - natLsb b < a < b`
then the lowest set bit of `a` fits inside the gap `b - a`. -/
theorem natLsb_key {a b : Nat} (_ha : 0 < a) (hab : a < b) (hstep : b - natLsb b < a) :
    natLsb a ≤ b - a := by
  have hb : 0 < b := by omega
  obtain ⟨k, hk⟩ := natLsb_pow2 hb
  obtain ⟨c, hc⟩ := natLsb_dvd hb
  have hle : natLsb b ≤ b := natLsb_le hb
  have hd : b - a < 2 ^ k := by omega
  have hdpos : 0 < b - a := by omega
  obtain ⟨c', rfl⟩ : ∃ c', c = c' + 1 := by
    refine ⟨c - 1, ?_⟩
    rcases Nat.eq_zero_or_pos c with h | h
    · subst h; omega
    · omega
  have hb' : b = 2 ^ k * c' + 2 ^ k := by rw [hc, hk]; ring
  have hsplit : a = 2 ^ k * c' + (2 ^ k - (b - a)) := by omega
  have key : natLsb a = natLsb (b - a) := by
    conv_lhs => rw [hsplit]
    rw [natLsb_add k (2 ^ k * c') (2 ^ k - (b - a)) ⟨c', rfl⟩ (by omega) (by omega),
      natLsb_two_pow_sub k (b - a) hdpos hd]
  rw [key]
  exact natLsb_le hdpos

theorem ldiff_odd_even (a : Nat) : Nat.ldiff (2 * a + 1) (2 * a) = 1 := by
  apply Nat.eq_of_testBit_eq
  intro i
  rw [Nat.testBit_ldiff]
  cases i with
  | zero =>
    rw [Nat.testBit_zero, Nat.testBit_zero, Nat.testBit_zero]
    have h1 : (2 * a + 1) % 2 = 1 := by omega
    have h2 : 2 * a % 2 = 0 := by omega
    simp [h1, h2]
  | succ i =>
    rw [Nat.testBit_succ, Nat.testBit_succ, Nat.testBit_succ]
    have h1 : (2 * a + 1) / 2 = a := by omega
    have h2 : 2 * a / 2 = a := by omega
    have h3 : (1 : Nat) / 2 = 0 := by norm_num
    rw [h1, h2, h3, Nat.zero_testBit]
    simp

theorem ldiff_even_odd (a : Nat) :
    Nat.ldiff (2 * a + 2) (2 * a + 1) = 2 * Nat.ldiff (a + 1) a := by
  apply Nat.eq_of_testBit_eq
  intro i
  rw [Nat.testBit_ldiff]
  cases i with
  | zero =>
    rw [Nat.testBit_zero, Nat.testBit_zero, Nat.testBit_zero]
    have h1 : (2 * a + 2) % 2 = 0 := by omega
    have h2 : 2 * Nat.ldiff (a + 1) a % 2 = 0 := by omega
    simp [h1, h2]
  | succ i =>
    rw [Nat.testBit_succ, Nat.testBit_succ, Nat.testBit_succ]
    have h1 : (2 * a + 2) / 2 = a + 1 := by omega
    have h2 : (2 * a + 1) / 2 = a := by omega
    have h3 : 2 * Nat.ldiff (a + 1) a / 2 = Nat.ldiff (a + 1) a := by omega
    rw [h1, h2, h3, Nat.testBit_ldiff]

theorem ldiff_pred : ∀ n : Nat, Nat.ldiff (n + 1) n = natLsb (n + 1) := by
  intro n
  induction n using Nat.strong_induction_on with
  | _ n ih =>
    by_cases hodd : n % 2 = 0
    · obtain ⟨a, rfl⟩ : ∃ a, n = 2 * a := ⟨n / 2, by omega⟩
      rw [ldiff_odd_even a, natLsb_of_odd (by omega)]
    · obtain ⟨a, rfl⟩ : ∃ a, n = 2 * a + 1 := ⟨n / 2, by omega⟩
      have h1 : 2 * a + 1 + 1 = 2 * a + 2 := by ring
      rw [h1, ldiff_even_odd a, ih a (by omega)]
      rw [natLsb_of_even (by omega : (2 * a + 2) % 2 = 0) (by omega)]
      have h2 : (2 * a + 2) / 2 = a + 1 := by omega
      rw [h2]

/-- The executable `lsb` agrees with the source expression `x & -x`
(`animate.py` line 23, `illustrate.py` line 124). -/
theorem lsb_eq_land : ∀ x : Int, Int.land x (-x) = lsb x := by
  intro x
  cases x with
  | ofNat n =>
    cases n with
    | zero => rfl
    | succ n =>
      show Int.land (Int.ofNat (n + 1)) (Int.negSucc n) = _
      show Int.ofNat (Nat.ldiff (n + 1) n) = _
      rw [ldiff_pred n]
      rfl
  | negSucc n =>
    show Int.land (Int.negSucc n) (Int.ofNat (n + 1)) = _
    show Int.ofNat (Nat.ldiff (n + 1) n) = _
    rw [ldiff_pred n]
    rfl

theorem lsb_coe_nat (n : Nat) : lsb (n : Int) = (natLsb n : Int) := by
  simp [lsb]

theorem lsb_pos {x : Int} (h : 0 < x) : 0 < lsb x := by
  rw [lsb]
  exact_mod_cast natLsb_pos (by omega : 0 < x.natAbs)

theorem lsb_le {x : Int} (h : 0 < x) : lsb x ≤ x := by
  rw [lsb]
  have h1 : natLsb x.natAbs ≤ x.natAbs := natLsb_le (by omega)
  omega

theorem lsb_pow2 {x : Int} (h : 0 < x) : ∃ k : Nat, lsb x = 2 ^ k := by
  obtain ⟨k, hk⟩ := natLsb_pow2 (by omega : 0 < x.natAbs)
  exact ⟨k, by rw [lsb, hk]; push_cast; ring⟩

/-- Key stepping fact lifted to `Int`. -/
theorem lsb_key {l m : Int} (hl : 0 < l) (hlm : l < m) (hstep : m - lsb m < l) :
    lsb l ≤ m - l := by
  have hm : 0 < m := by omega
  have ha : l.natAbs = l.toNat := by omega
  have hb : m.natAbs = m.toNat := by omega
  have hker : natLsb l.toNat ≤ m.toNat - l.toNat := by
    apply natLsb_key (by omega) (by omega)
    have hle : natLsb m.toNat ≤ m.toNat := natLsb_le (by omega)
    have : lsb m = (natLsb m.toNat : Int) := by rw [lsb, hb]
    omega
  have : lsb l = (natLsb l.toNat : Int) := by rw [lsb, ha]
  omega

namespace Fenwick

/-- The `Part` dataclass, identical in `animate.py` and `illustrate.py`:
one canonical block `[start, end)` of size `height`.  Python's field `end`
is a Lean keyword and is rendered `end_`. -/
structure Part where
  start : Int
  end_ : Int
  height : Int
  is_left : Bool
deriving DecidableEq

/-- The `Parts` dataclass, identical in both files.  Python stores
`first_cut_height` as a float that is either a positive integer or
`np.inf`; it is modelled as `Option Int` with `none` for `np.inf`. -/
structure Parts where
  parts : List Part
  first_cut_height : Option Int
deriving DecidableEq

/-- The first `while` loop of `into_parts` (`animate.py` lines 31-35):
while `right > 0` and `right - lsb(right) >= left`, emit
`Part(start=right-lsb(right), end=right, height=lsb(right), is_left=False)`
and shrink `right`.  Returns the emitted list (in emission order, i.e. the
Python `right_parts` list) together with the final value of `right`.
The first argument is fuel (the Python loop has none); `into_parts` passes
fuel exceeding the iteration count, which strictly decreases `r.toNat`. -/
def into_parts_right_go : Nat → Int → Int → List Part × Int
  | 0, _, r => ([], r)
  | fuel + 1, left, r =>
    if 0 < r ∧ left ≤ r - lsb r then
      let rest := into_parts_right_go fuel left (r - lsb r)
      (⟨r - lsb r, r, lsb r, false⟩ :: rest.1, rest.2)
    else ([], r)

/-- The second `while` loop of `into_parts` (`animate.py` lines 37-41):
while `left > 0` and `left + lsb(left) <= right` (the final value of
`right` from the first loop), emit
`Part(start=left, end=left+lsb(left), height=lsb(left), is_left=True)`
and advance `left`.  Returns the Python `left_parts` list and the final
value of `left`. -/
def into_parts_left_go : Nat → Int → Int → List Part × Int
  | 0, _, l => ([], l)
  | fuel + 1, right, l =>
    if 0 < l ∧ l + lsb l ≤ right then
      let rest := into_parts_left_go fuel right (l + lsb l)
      (⟨l, l + lsb l, lsb l, true⟩ :: rest.1, rest.2)
    else ([], l)

/-- `into_parts` from `animate.py` (lines 25-49).  The Python
`assert left == right` is modelled by returning `none` when the two
cursors do not meet (an `AssertionError` in Python); on success the parts
are `left_parts + right_parts[::-1]` and `first_cut_height` is
`lsb(left)` for the final (mutated) `left`, with `0` replaced by the
infinity sentinel (`none`). -/
def into_parts (left right : Int) : Option Parts :=
  let rloop := into_parts_right_go (right.toNat + 1) left right
  let lloop := into_parts_left_go (rloop.2.toNat + 1) rloop.2 left
  if lloop.2 = rloop.2 then
    some ⟨lloop.1 ++ rloop.1.reverse,
          if lsb lloop.2 = 0 then none else some (lsb lloop.2)⟩
  else none

namespace Illustrate

/-- The first `while` loop of `Drawer._into_parts` (`illustrate.py` lines
132-142): identical to the `animate.py` loop except that the emitted parts
carry `is_left=True`. -/
def into_parts_right_go : Nat → Int → Int → List Part × Int
  | 0, _, r => ([], r)
  | fuel + 1, left, r =>
    if 0 < r ∧ left ≤ r - lsb r then
      let rest := into_parts_right_go fuel left (r - lsb r)
      (⟨r - lsb r, r, lsb r, true⟩ :: rest.1, rest.2)
    else ([], r)

/-- The second `while` loop of `Drawer._into_parts` (`illustrate.py` lines
144-149): identical to the `animate.py` loop except that the emitted parts
carry `is_left=False`. -/
def into_parts_left_go : Nat → Int → Int → List Part × Int
  | 0, _, l => ([], l)
  | fuel + 1, right, l =>
    if 0 < l ∧ l + lsb l ≤ right then
      let rest := into_parts_left_go fuel right (l + lsb l)
      (⟨l, l + lsb l, lsb l, false⟩ :: rest.1, rest.2)
    else ([], l)

/-- `Drawer._into_parts` from `illustrate.py` (lines 129-157). -/
def into_parts (left right : Int) : Option Parts :=
  let rloop := into_parts_right_go (right.toNat + 1) left right
  let lloop := into_parts_left_go (rloop.2.toNat + 1) rloop.2 left
  if lloop.2 = rloop.2 then
    some ⟨lloop.1 ++ rloop.1.reverse,
          if lsb lloop.2 = 0 then none else some (lsb lloop.2)⟩
  else none

end Illustrate

/-- Exact tiling of the half-open range `[l, r)` by a list of parts:
the first part starts at `l`, each part spans exactly `height` positions
(`end == start + height`), consecutive parts are adjacent, and the last
part ends at `r` (an empty list tiles only the empty range `l = r`). -/
def Tiles (l r : Int) : List Part → Prop
  | [] => l = r
  | p :: ps => p.start = l ∧ p.end_ = l + p.height ∧ Tiles p.end_ r ps

theorem Tiles_append : ∀ (xs : List Part) (a b c : Int) (ys : List Part),
    Tiles a b xs → Tiles b c ys → Tiles a c (xs ++ ys) := by
  intro xs
  induction xs with
  | nil =>
    intro a b c ys hx hy
    have : a = b := hx
    subst this
    exact hy
  | cons p xs ih =>
    intro a b c ys hx hy
    obtain ⟨hs, he, ht⟩ := hx
    exact ⟨hs, he, ih _ _ _ _ ht hy⟩

theorem right_go_continue {l r : Int} (h : 0 < r ∧ l ≤ r - lsb r) (fuel : Nat) :
    into_parts_right_go (fuel + 1) l r =
      (⟨r - lsb r, r, lsb r, false⟩ :: (into_parts_right_go fuel l (r - lsb r)).1,
       (into_parts_right_go fuel l (r - lsb r)).2) := by
  simp [into_parts_right_go, h]

theorem right_go_stop {l r : Int} (h : ¬(0 < r ∧ l ≤ r - lsb r)) (fuel : Nat) :
    into_parts_right_go fuel l r = ([], r) := by
  cases fuel with
  | zero => rfl
  | succ fuel => simp [into_parts_right_go, h]

theorem left_go_continue {m l : Int} (h : 0 < l ∧ l + lsb l ≤ m) (fuel : Nat) :
    into_parts_left_go (fuel + 1) m l =
      (⟨l, l + lsb l, lsb l, true⟩ :: (into_parts_left_go fuel m (l + lsb l)).1,
       (into_parts_left_go fuel m (l + lsb l)).2) := by
  simp [into_parts_left_go, h]

theorem left_go_stop {m l : Int} (h : ¬(0 < l ∧ l + lsb l ≤ m)) (fuel : Nat) :
    into_parts_left_go fuel m l = ([], l) := by
  cases fuel with
  | zero => rfl
  | succ fuel => simp [into_parts_left_go, h]

/-- Invariant of the right-cursor walk on valid inputs: the final cursor
stays in `[l, r]`, either reaches `0` or stops just past `l` (its next
jump would cross `l`), the emitted parts tile `[final, r)` once reversed,
and every part has a power-of-two height and `is_left = False`. -/
theorem right_go_spec : ∀ (fuel : Nat) (l r : Int), 0 ≤ l → l ≤ r → r.toNat < fuel →
    l ≤ (into_parts_right_go fuel l r).2 ∧
    (into_parts_right_go fuel l r).2 ≤ r ∧
    ((into_parts_right_go fuel l r).2 = 0 ∨
      (0 < (into_parts_right_go fuel l r).2 ∧
        (into_parts_right_go fuel l r).2 - lsb (into_parts_right_go fuel l r).2 < l)) ∧
    Tiles (into_parts_right_go fuel l r).2 r (into_parts_right_go fuel l r).1.reverse ∧
    ∀ p ∈ (into_parts_right_go fuel l r).1, ∃ k : Nat, p.height = 2 ^ k := by
  intro fuel
  induction fuel with
  | zero => intro l r _ _ hf; omega
  | succ fuel ih =>
    intro l r h0 hlr hf
    by_cases hc : 0 < r ∧ l ≤ r - lsb r
    · have hlsb : 0 < lsb r := lsb_pos hc.1
      have hrec := ih l (r - lsb r) h0 hc.2 (by omega)
      rw [right_go_continue hc fuel]
      simp only [List.reverse_cons, List.mem_cons]
      obtain ⟨ih1, ih2, ih3, ih4, ih5⟩ := hrec
      refine ⟨ih1, by omega, ?_, ?_, ?_⟩
      · exact ih3
      · refine Tiles_append _ _ _ _ _ ih4 ?_
        exact ⟨rfl, by simp only []; omega, rfl⟩
      · rintro p (rfl | hp)
        · exact lsb_pow2 hc.1
        · exact ih5 p hp
    · rw [right_go_stop hc fuel.succ]
      refine ⟨hlr, le_refl r, ?_, rfl, by simp⟩
      rcases lt_or_eq_of_le h0 with h | h
      · right
        have hr : 0 < r := by omega
        exact ⟨hr, by push_neg at hc; exact hc hr⟩
      · rcases eq_or_lt_of_le hlr with h' | h'
        · left; omega
        · right
          have hr : 0 < r := by omega
          exact ⟨hr, by push_neg at hc; exact hc hr⟩

/-- Convergence of the left-cursor walk: started strictly inside the last
block of the bound `m` (that is, `m - lsb m < l ≤ m`, `0 < l`), it ends
exactly at `m` and its parts tile `[l, m)` with power-of-two heights. -/
theorem left_go_meets : ∀ (fuel : Nat) (m l : Int), 0 < l → l ≤ m → m - lsb m < l →
    (m - l).toNat < fuel →
    (into_parts_left_go fuel m l).2 = m ∧
    Tiles l m (into_parts_left_go fuel m l).1 ∧
    ∀ p ∈ (into_parts_left_go fuel m l).1, ∃ k : Nat, p.height = 2 ^ k := by
  intro fuel
  induction fuel with
  | zero => intro m l _ _ _ hf; omega
  | succ fuel ih =>
    intro m l hl hlm hstep hf
    by_cases hc : 0 < l ∧ l + lsb l ≤ m
    · have hlsb : 0 < lsb l := lsb_pos hl
      have hrec := ih m (l + lsb l) (by omega) hc.2 (by omega) (by omega)
      rw [left_go_continue hc fuel]
      simp only [List.mem_cons]
      obtain ⟨ih1, ih2, ih3⟩ := hrec
      refine ⟨ih1, ⟨rfl, rfl, ih2⟩, ?_⟩
      rintro p (rfl | hp)
      · exact lsb_pow2 hl
      · exact ih3 p hp
    · rw [left_go_stop hc fuel.succ]
      have hlm' : l = m := by
        rcases eq_or_lt_of_le hlm with h | h
        · exact h
        · exfalso
          have := lsb_key hl h hstep
          push_neg at hc
          have := hc hl
          omega
      subst hlm'
      exact ⟨rfl, rfl, by simp⟩

/-- With a non-positive left bound the right-cursor walk always runs down
to exactly `0` (every jump stays non-negative, hence above the bound). -/
theorem right_go_neg : ∀ (fuel : Nat) (l r : Int), l < 0 → 0 ≤ r → r.toNat < fuel →
    (into_parts_right_go fuel l r).2 = 0 := by
  intro fuel
  induction fuel with
  | zero => intro l r _ _ hf; omega
  | succ fuel ih =>
    intro l r hneg h0 hf
    by_cases hr : 0 < r
    · have hlsb : 0 < lsb r := lsb_pos hr
      have hle : lsb r ≤ r := lsb_le hr
      have hc : 0 < r ∧ l ≤ r - lsb r := ⟨hr, by omega⟩
      rw [right_go_continue hc fuel]
      exact ih l (r - lsb r) hneg (by omega) (by omega)
    · rw [right_go_stop (by omega) fuel.succ]
      omega

/-- Structural success theorem for `into_parts` on valid inputs: the
cursors meet, so the function returns a `Parts` whose parts tile
`[l, r)` with power-of-two heights, and whose `first_cut_height` is the
infinity sentinel exactly for `l = 0` and otherwise the `lsb` of the
meeting point (the final value of the mutated `left` variable). -/
theorem into_parts_spec (l r : Int) (h0 : 0 ≤ l) (hlr : l ≤ r) :
    ∃ P, into_parts l r = some P ∧ Tiles l r P.parts ∧
      (∀ p ∈ P.parts, ∃ k : Nat, p.height = 2 ^ k) ∧
      (l = 0 → P.first_cut_height = none) ∧
      (0 < l → ∃ m : Int, 0 < m ∧ l ≤ m ∧ m ≤ r ∧
        m = (into_parts_right_go (r.toNat + 1) l r).2 ∧
        P.first_cut_height = some (lsb m)) := by
  obtain ⟨hr1, hr2, hr3, hr4, hr5⟩ := right_go_spec (r.toNat + 1) l r h0 hlr (by omega)
  rcases lt_or_eq_of_le h0 with hl | hl
  · -- 0 < l
    set rf := (into_parts_right_go (r.toNat + 1) l r).2 with hrf_def
    have hrf : 0 < rf ∧ rf - lsb rf < l := by
      rcases hr3 with h | h
      · omega
      · exact h
    obtain ⟨hlf, hlt, hlp⟩ := left_go_meets (rf.toNat + 1) rf l hl hr1 hrf.2 (by omega)
    have hne0 : ¬ lsb rf = 0 := by
      have := lsb_pos hrf.1
      omega
    have heq : into_parts l r =
        some ⟨(into_parts_left_go (rf.toNat + 1) rf l).1 ++
                (into_parts_right_go (r.toNat + 1) l r).1.reverse,
              some (lsb rf)⟩ := by
      simp only [into_parts, ← hrf_def, hlf, if_pos rfl, hne0, if_false, if_true]
    refine ⟨_, heq, ?_, ?_, ?_, ?_⟩
    · exact Tiles_append _ l rf r _ hlt hr4
    · intro p hp
      rcases List.mem_append.1 hp with h | h
      · exact hlp p h
      · exact hr5 p (List.mem_reverse.1 h)
    · intro h; omega
    · intro _
      exact ⟨rf, hrf.1, hr1, hr2, rfl, rfl⟩
  · -- l = 0
    subst hl
    set rf := (into_parts_right_go (r.toNat + 1) 0 r).2 with hrf_def
    have hrf0 : rf = 0 := by
      rcases hr3 with h | h
      · exact h
      · have := lsb_le h.1
        omega
    have hleft0 : into_parts_left_go 1 (0 : Int) 0 = ([], (0 : Int)) := by decide
    have hlsb0 : lsb (0 : Int) = 0 := by decide
    have heq : into_parts 0 r =
        some ⟨(into_parts_right_go (r.toNat + 1) 0 r).1.reverse, none⟩ := by
      simp only [into_parts, ← hrf_def, hrf0]
      simp [hleft0, hlsb0]
    refine ⟨_, heq, ?_, ?_, ?_, ?_⟩
    · rw [hrf0] at hr4
      exact hr4
    · intro p hp
      exact hr5 p (List.mem_reverse.1 hp)
    · intro _; rfl
    · intro h; omega

/-- `into_parts` hits the failed-assert branch when `left > right`. -/
theorem into_parts_none_of_lt (l r : Int) (h : r < l) : into_parts l r = none := by
  have hstop : ¬(0 < r ∧ l ≤ r - lsb r) := by
    rintro ⟨hr, hle⟩
    have := lsb_pos hr
    omega
  have hlstop : ¬(0 < l ∧ l + lsb l ≤ r) := by
    rintro ⟨hl, hle⟩
    have := lsb_pos hl
    omega
  rw [into_parts]
  simp only [right_go_stop hstop, left_go_stop hlstop]
  have : ¬ l = r := by omega
  simp [this]

/-- `into_parts` hits the failed-assert branch when `left < 0 < right`
gap is non-degenerate: the right walk runs to `0` but the left cursor
stays at the negative `left`. -/
theorem into_parts_none_of_neg (l r : Int) (hneg : l < 0) (hlt : l < r) :
    into_parts l r = none := by
  have hlstop : ∀ m fuel, into_parts_left_go fuel m l = ([], l) := by
    intro m fuel
    exact left_go_stop (by rintro ⟨hl, _⟩; omega) fuel
  by_cases hr : 0 ≤ r
  · have hrf0 : (into_parts_right_go (r.toNat + 1) l r).2 = 0 := by
      exact right_go_neg (r.toNat + 1) l r hneg hr (by omega)
    rw [into_parts]
    simp only [hlstop, hrf0]
    have : ¬ l = (0 : Int) := by omega
    simp [this]
  · have hstop : ¬(0 < r ∧ l ≤ r - lsb r) := by
      rintro ⟨hr', _⟩
      omega
    rw [into_parts]
    simp only [right_go_stop hstop, hlstop]
    have : ¬ l = r := by omega
    simp [this]

theorem right_go_flags : ∀ (fuel : Nat) (l r : Int),
    ∀ p ∈ (into_parts_right_go fuel l r).1, p.is_left = false := by
  intro fuel
  induction fuel with
  | zero => intro l r p hp; simp [into_parts_right_go] at hp
  | succ fuel ih =>
    intro l r p hp
    by_cases hc : 0 < r ∧ l ≤ r - lsb r
    · rw [right_go_continue hc fuel] at hp
      rcases List.mem_cons.1 hp with rfl | hp'
      · rfl
      · exact ih l (r - lsb r) p hp'
    · rw [right_go_stop hc fuel.succ] at hp
      simp at hp

theorem left_go_flags : ∀ (fuel : Nat) (m l : Int),
    ∀ p ∈ (into_parts_left_go fuel m l).1, p.is_left = true := by
  intro fuel
  induction fuel with
  | zero => intro m l p hp; simp [into_parts_left_go] at hp
  | succ fuel ih =>
    intro m l p hp
    by_cases hc : 0 < l ∧ l + lsb l ≤ m
    · rw [left_go_continue hc fuel] at hp
      rcases List.mem_cons.1 hp with rfl | hp'
      · rfl
      · exact ih m (l + lsb l) p hp'
    · rw [left_go_stop hc fuel.succ] at hp
      simp at hp

/-- Negation of the `is_left` flag; the only difference between the two
files' decompositions. -/
def flip_part (p : Part) : Part := ⟨p.start, p.end_, p.height, !p.is_left⟩

theorem illustrate_right_go_eq : ∀ (fuel : Nat) (l r : Int),
    Illustrate.into_parts_right_go fuel l r =
      ((into_parts_right_go fuel l r).1.map flip_part, (into_parts_right_go fuel l r).2) := by
  intro fuel
  induction fuel with
  | zero => intro l r; rfl
  | succ fuel ih =>
    intro l r
    by_cases hc : 0 < r ∧ l ≤ r - lsb r
    · rw [right_go_continue hc fuel]
      simp only [Illustrate.into_parts_right_go, hc, and_self, if_true, ih, List.map_cons]
      rfl
    · rw [right_go_stop hc fuel.succ]
      simp [Illustrate.into_parts_right_go, hc]

theorem illustrate_left_go_eq : ∀ (fuel : Nat) (m l : Int),
    Illustrate.into_parts_left_go fuel m l =
      ((into_parts_left_go fuel m l).1.map flip_part, (into_parts_left_go fuel m l).2) := by
  intro fuel
  induction fuel with
  | zero => intro m l; rfl
  | succ fuel ih =>
    intro m l
    by_cases hc : 0 < l ∧ l + lsb l ≤ m
    · rw [left_go_continue hc fuel]
      simp only [Illustrate.into_parts_left_go, hc, and_self, if_true, ih, List.map_cons]
      rfl
    · rw [left_go_stop hc fuel.succ]
      simp [Illustrate.into_parts_left_go, hc]

/-- The two files' decompositions agree except that every `is_left` flag is
negated. -/
theorem illustrate_into_parts_eq (l r : Int) :
    Illustrate.into_parts l r =
      (into_parts l r).map (fun P => ⟨P.parts.map flip_part, P.first_cut_height⟩) := by
  rw [Illustrate.into_parts, into_parts]
  simp only [illustrate_right_go_eq, illustrate_left_go_eq]
  by_cases hc : (into_parts_left_go ((into_parts_right_go (r.toNat + 1) l r).2.toNat + 1)
      (into_parts_right_go (r.toNat + 1) l r).2 l).2 = (into_parts_right_go (r.toNat + 1) l r).2
  · simp [hc, List.map_append, List.map_reverse]
  · simp [hc]

theorem Tiles_parts_height : ∀ (ps : List Part) (l r : Int), Tiles l r ps →
    ∀ p ∈ ps, p.end_ = p.start + p.height := by
  intro ps
  induction ps with
  | nil => intro l r _ p hp; simp at hp
  | cons q ps ih =>
    intro l r ht p hp
    obtain ⟨hs, he, ht'⟩ := ht
    rcases List.mem_cons.1 hp with rfl | hp'
    · rw [he, hs]
    · exact ih _ _ ht' p hp'

/-- C1 (confirmed): for every input with `0 <= left <= right` (hence in
particular for every valid input additionally bounded by `maxPosition`,
which `into_parts` never reads), the decomposition succeeds and its parts
exactly tile the half-open range `[left, right)`: the first part starts at
`left`, adjacent parts abut, the last part ends at `right`, and every part
satisfies `end - start == height` with `height` a power of two. -/
theorem C1_tiling (l r : Int) (h0 : 0 ≤ l) (hlr : l ≤ r) :
    ∃ P, into_parts l r = some P ∧ Tiles l r P.parts ∧
      ∀ p ∈ P.parts, p.end_ = p.start + p.height ∧ ∃ k : Nat, p.height = 2 ^ k := by
  obtain ⟨P, hP, ht, hpow, _, _⟩ := into_parts_spec l r h0 hlr
  exact ⟨P, hP, ht, fun p hp => ⟨Tiles_parts_height _ _ _ ht p hp, hpow p hp⟩⟩

theorem C1_tiling_witness :
    (0 : Int) ≤ 9 ∧ (9 : Int) ≤ 29 ∧
    ∃ P, into_parts 9 29 = some P ∧ Tiles 9 29 P.parts ∧
      ∀ p ∈ P.parts, p.end_ = p.start + p.height ∧ ∃ k : Nat, p.height = 2 ^ k :=
  ⟨by norm_num, by norm_num, C1_tiling 9 29 (by norm_num) (by norm_num)⟩

/-- C2 counterexample: `decompose(9, 29)` does return the six claimed
parts in order, but its `first_cut_height` is `16` (the `lsb` of the
meeting point `16`, the final value of the mutated `left` variable), not
`1` as the claim states. -/
theorem C2_scenario_cex :
    into_parts 9 29 =
      some ⟨[⟨9, 10, 1, true⟩, ⟨10, 12, 2, true⟩, ⟨12, 16, 4, true⟩,
             ⟨16, 24, 8, false⟩, ⟨24, 28, 4, false⟩, ⟨28, 29, 1, false⟩], some 16⟩ ∧
    ¬ (into_parts 9 29).map Parts.first_cut_height = some (some 1) := by
  refine ⟨by decide, by decide⟩

/-- C2 as amended: `decompose(9, 29)` returns exactly the six claimed
parts in order with the claimed flags (`animate.py`), but
`firstCutHeight == 16`, not `1`; and in general every part emitted by the
left-cursor loop has `is_left = True` while every part emitted by the
right-cursor loop has `is_left = False`. -/
theorem C2_scenario :
    (into_parts 9 29 =
      some ⟨[⟨9, 10, 1, true⟩, ⟨10, 12, 2, true⟩, ⟨12, 16, 4, true⟩,
             ⟨16, 24, 8, false⟩, ⟨24, 28, 4, false⟩, ⟨28, 29, 1, false⟩], some 16⟩) ∧
    (∀ (fuel : Nat) (m l : Int), ∀ p ∈ (into_parts_left_go fuel m l).1, p.is_left = true) ∧
    (∀ (fuel : Nat) (l r : Int), ∀ p ∈ (into_parts_right_go fuel l r).1, p.is_left = false) :=
  ⟨by decide, left_go_flags, right_go_flags⟩

theorem C2_scenario_witness :
    (⟨9, 10, 1, true⟩ : Part) ∈ (into_parts_left_go 17 16 9).1 ∧
    (⟨9, 10, 1, true⟩ : Part).is_left = true :=
  ⟨by decide, C2_scenario.2.1 17 16 9 _ (by decide)⟩

/-- C3 counterexample: for `decompose(9, 29)` the code's
`first_cut_height` is `16`, whereas `lsb(left) = lsb(9) = 1`; the claim
`firstCutHeight == lsb(left)` fails because the code computes `lsb` of
the mutated `left` (the meeting point), not of the original argument. -/
theorem C3_sentinel_cex :
    (into_parts 9 29).map Parts.first_cut_height = some (some 16) ∧
    lsb 9 = 1 ∧ ¬ (some (16 : Int) = some (1 : Int)) := by
  refine ⟨by decide, by decide, by decide⟩

/-- C3 as amended: on valid inputs `decompose(0, right).firstCutHeight`
is the infinity sentinel, as claimed; but for `left > 0` the value is
`lsb(m)` where `m` is the meeting point of the two cursor walks (the
final value of the mutated `left` variable), not `lsb` of the original
`left`. -/
theorem C3_sentinel (l r : Int) (h0 : 0 ≤ l) (hlr : l ≤ r) :
    ∃ P, into_parts l r = some P ∧
      (l = 0 → P.first_cut_height = none) ∧
      (0 < l → ∃ m : Int, 0 < m ∧ l ≤ m ∧ m ≤ r ∧
        m = (into_parts_right_go (r.toNat + 1) l r).2 ∧
        P.first_cut_height = some (lsb m)) := by
  obtain ⟨P, hP, _, _, hz, hpos⟩ := into_parts_spec l r h0 hlr
  exact ⟨P, hP, hz, hpos⟩

theorem C3_sentinel_witness :
    ((0 : Int) ≤ 0 ∧ (0 : Int) ≤ 27 ∧
      ∃ P, into_parts 0 27 = some P ∧
        ((0 : Int) = 0 → P.first_cut_height = none) ∧
        ((0 : Int) < 0 → ∃ m : Int, 0 < m ∧ (0 : Int) ≤ m ∧ m ≤ 27 ∧
          m = (into_parts_right_go ((27 : Int).toNat + 1) 0 27).2 ∧
          P.first_cut_height = some (lsb m))) :=
  ⟨le_refl 0, by norm_num, C3_sentinel 0 27 (le_refl 0) (by norm_num)⟩

/-- C4 (confirmed): under the precondition `0 <= left <= right` the two
greedy lowest-set-bit walks always meet, so the `assert left == right`
in `into_parts` never fires (modelled as: the function never returns the
`none` that stands for an `AssertionError`). -/
theorem C4_assert_unreachable (l r : Int) (h0 : 0 ≤ l) (hlr : l ≤ r) :
    (into_parts l r).isSome = true := by
  obtain ⟨P, hP, _⟩ := into_parts_spec l r h0 hlr
  rw [hP]
  rfl

theorem C4_assert_unreachable_witness :
    (0 : Int) ≤ 3 ∧ (3 : Int) ≤ 37 ∧ (into_parts 3 37).isSome = true :=
  ⟨by norm_num, by norm_num, C4_assert_unreachable 3 37 (by norm_num) (by norm_num)⟩

/-- C5 counterexample: `into_parts` performs no input validation at all.
With `left = right = -3` (so `left < 0`) it returns a result instead of
raising, and with `maxPosition = 64` (the value used by the scripts) the
call `into_parts(0, 65)` with `right > maxPosition` also returns a
result — `into_parts` never even receives `maxPosition`. -/
theorem C5_invalid_range_cex :
    (into_parts (-3) (-3)).isSome = true ∧ (into_parts 0 65).isSome = true := by
  refine ⟨by decide, by decide⟩

/-- C5 as amended: the only failure `into_parts` can produce is the
`assert left == right` (`AssertionError`), and it fires exactly when the
walks cannot meet: whenever `left > right`, and whenever `left < 0` with
`left ≠ right`.  No `maxPosition` bound is checked (the function does not
take one), and `left == right < 0` returns normally. -/
theorem C5_invalid_range (l r : Int) (h : r < l ∨ (l < 0 ∧ l ≠ r)) :
    into_parts l r = none := by
  rcases h with h | ⟨hneg, hne⟩
  · exact into_parts_none_of_lt l r h
  · rcases lt_or_gt_of_ne hne with h' | h'
    · exact into_parts_none_of_neg l r hneg h'
    · exact into_parts_none_of_lt l r h'

theorem C5_invalid_range_witness :
    ((3 : Int) < 7 ∨ ((7 : Int) < 0 ∧ (7 : Int) ≠ 3)) ∧ into_parts 7 3 = none :=
  ⟨Or.inl (by norm_num), C5_invalid_range 7 3 (Or.inl (by norm_num))⟩

/-- C9 (confirmed): on every valid input the decompositions of
`animate.py` and `illustrate.py` agree on the ordered
`(start, end, height)` triples and on `first_cut_height`, while their
`is_left` flags are pointwise negations of each other. -/
theorem C9_two_files_agree (l r : Int) (h0 : 0 ≤ l) (hlr : l ≤ r) :
    ∃ PA PI, into_parts l r = some PA ∧ Illustrate.into_parts l r = some PI ∧
      PA.parts.map (fun p => (p.start, p.end_, p.height)) =
        PI.parts.map (fun p => (p.start, p.end_, p.height)) ∧
      PI.parts.map Part.is_left = PA.parts.map (fun p => !p.is_left) ∧
      PA.first_cut_height = PI.first_cut_height := by
  obtain ⟨PA, hPA, _⟩ := into_parts_spec l r h0 hlr
  refine ⟨PA, ⟨PA.parts.map flip_part, PA.first_cut_height⟩, hPA, ?_, ?_, ?_, rfl⟩
  · rw [illustrate_into_parts_eq, hPA]
    rfl
  · simp [flip_part, List.map_map]
  · simp [flip_part, List.map_map]

theorem C9_two_files_agree_witness :
    (0 : Int) ≤ 32 ∧ (32 : Int) ≤ 49 ∧
    ∃ PA PI, into_parts 32 49 = some PA ∧ Illustrate.into_parts 32 49 = some PI ∧
      PA.parts.map (fun p => (p.start, p.end_, p.height)) =
        PI.parts.map (fun p => (p.start, p.end_, p.height)) ∧
      PI.parts.map Part.is_left = PA.parts.map (fun p => !p.is_left) ∧
      PA.first_cut_height = PI.first_cut_height :=
  ⟨by norm_num, by norm_num, C9_two_files_agree 32 49 (by norm_num) (by norm_num)⟩

/-- Fuelled helper for Python's `int.bit_length`: number of binary digits,
`0` for `0`. -/
def bit_length_go : Nat → Nat → Nat
  | 0, _ => 0
  | fuel + 1, n => if n = 0 then 0 else bit_length_go fuel (n / 2) + 1

/-- Python `int.bit_length` on naturals. -/
def natBitLength (n : Nat) : Nat := bit_length_go n n

/-- Python `x.bit_length()` for an `int` (Python uses the absolute value
for negative arguments). -/
def bit_length (x : Int) : Int := (natBitLength x.natAbs : Int)

/-- The inner `as_level` of `animate.py` (lines 69-70), identical to
`Drawer._as_level` of `illustrate.py` (lines 126-127):
`x.bit_length() if logarithmic else x`. -/
def as_level (logarithmic : Bool) (x : Int) : Int :=
  if logarithmic then bit_length x else x

/-- `round_up_to_pow2` from `animate.py` (lines 51-52):
`1 << x.bit_length()` (written `2 ^ bit_length`). -/
def round_up_to_pow2 (x : Int) : Int := 2 ^ natBitLength x.natAbs

/-- `Drawer._round_up_to_pow2` from `illustrate.py` (lines 159-162):
returns `x` unchanged when `x & (x - 1) == 0` (i.e. `x` is `0` or a power
of two), else `1 << x.bit_length()`. -/
def Illustrate.round_up_to_pow2 (x : Int) : Int :=
  if Int.land x (x - 1) = 0 then x else 2 ^ natBitLength x.natAbs

/-- `max_level` as computed by `animate.py` (line 96):
`as_level(max_position)`, with no rounding. -/
def max_level_animate (logarithmic : Bool) (max_position : Int) : Int :=
  as_level logarithmic max_position

/-- `self.max_level` as computed by `Drawer.__init__` (`illustrate.py`
line 52) when `max_position` is an `int`:
`as_level(round_up_to_pow2(max_position))`. -/
def Illustrate.max_level (logarithmic : Bool) (max_position : Int) : Int :=
  as_level logarithmic (Illustrate.round_up_to_pow2 max_position)

theorem bit_length_go_zero (fuel : Nat) : bit_length_go fuel 0 = 0 := by
  cases fuel <;> simp [bit_length_go]

theorem bit_length_go_congr : ∀ f g n : Nat, n ≤ f → n ≤ g →
    bit_length_go f n = bit_length_go g n := by
  intro f
  induction f with
  | zero =>
    intro g n hf _
    interval_cases n
    rw [bit_length_go_zero, bit_length_go_zero]
  | succ f ih =>
    intro g n hf hg
    rcases Nat.eq_zero_or_pos n with h0 | h0
    · subst h0; rw [bit_length_go_zero, bit_length_go_zero]
    obtain ⟨g', rfl⟩ : ∃ g', g = g' + 1 := ⟨g - 1, by omega⟩
    show bit_length_go (f + 1) n = bit_length_go (g' + 1) n
    rw [bit_length_go, bit_length_go]
    have hn : ¬ n = 0 := by omega
    simp only [hn, if_false]
    have hlt : n / 2 < n := Nat.div_lt_self h0 (by norm_num)
    rw [ih g' (n / 2) (by omega) (by omega)]

theorem natBitLength_step {n : Nat} (h0 : 0 < n) :
    natBitLength n = natBitLength (n / 2) + 1 := by
  obtain ⟨f, rfl⟩ : ∃ f, n = f + 1 := ⟨n - 1, by omega⟩
  show bit_length_go (f + 1) (f + 1) = natBitLength ((f + 1) / 2) + 1
  rw [bit_length_go]
  have hn : ¬ (f + 1) = 0 := by omega
  simp only [hn, if_false]
  rw [bit_length_go_congr f ((f + 1) / 2) ((f + 1) / 2) (by omega) (le_refl _)]
  rfl

/-- Every natural number is below `2` to its bit length. -/
theorem lt_two_pow_natBitLength : ∀ n : Nat, n < 2 ^ natBitLength n := by
  intro n
  induction n using Nat.strong_induction_on with
  | _ n ih =>
    rcases Nat.eq_zero_or_pos n with h0 | h0
    · subst h0; norm_num
    · have hlt : n / 2 < n := Nat.div_lt_self h0 (by norm_num)
      have := ih (n / 2) hlt
      rw [natBitLength_step h0, pow_succ]
      omega

/-- C8 counterexample: in `animate.py` (line 96) `max_level` is
`as_level(max_position)` with no rounding: for the scripts'
`max_position = 64` in logarithmic mode it is `7`, whereas
`asLevel(roundUpToPowerOfTwo(64))` computed with `animate.py`'s
`round_up_to_pow2` is `8`; moreover that `round_up_to_pow2` maps the
exact power of two `4` to `8` rather than leaving it unchanged. -/
theorem C8_max_level_cex :
    max_level_animate true 64 = 7 ∧
    as_level true (round_up_to_pow2 64) = 8 ∧
    ¬ ((7 : Int) = 8) ∧
    round_up_to_pow2 4 = 8 ∧
    ¬ ((8 : Int) = 4) := by
  refine ⟨by decide, by decide, by norm_num, by decide, by norm_num⟩

/-- C8 as amended: only `illustrate.py` computes
`maxLevel = asLevel(_round_up_to_pow2(maxPosition))`, and its
`_round_up_to_pow2` does leave every exact power of two unchanged;
`animate.py` computes `maxLevel = asLevel(maxPosition)` directly with no
rounding, and its `round_up_to_pow2` (used only to default a missing
`max_position`) returns `1 << bitLength(x)`, which is strictly greater
than every non-negative `x` — it never fixes a power of two. -/
theorem C8_max_level :
    (∀ k : Nat, Illustrate.round_up_to_pow2 ((2 : Int) ^ k) = 2 ^ k) ∧
    (∀ (logarithmic : Bool) (mp : Int),
      Illustrate.max_level logarithmic mp =
        as_level logarithmic (Illustrate.round_up_to_pow2 mp)) ∧
    (∀ (logarithmic : Bool) (mp : Int),
      max_level_animate logarithmic mp = as_level logarithmic mp) ∧
    (∀ x : Int, 0 ≤ x → x < round_up_to_pow2 x) := by
  refine ⟨?_, fun _ _ => rfl, fun _ _ => rfl, ?_⟩
  · intro k
    rw [Illustrate.round_up_to_pow2]
    have h1 : (1 : Nat) ≤ 2 ^ k := Nat.one_le_two_pow
    have hcast : ((2 : Int) ^ k) = ((2 ^ k : Nat) : Int) := by push_cast; ring
    have hsub : ((2 : Int) ^ k) - 1 = ((2 ^ k - 1 : Nat) : Int) := by omega
    have hnat : (2 ^ k) &&& (2 ^ k - 1) = 0 := by
      rw [Nat.and_pow_two_sub_one_eq_mod]
      exact Nat.mod_self _
    have hland : Int.land ((2 ^ k : Nat) : Int) ((2 ^ k - 1 : Nat) : Int) =
        (((2 ^ k) &&& (2 ^ k - 1) : Nat) : Int) := rfl
    rw [hsub, hcast, hland, hnat]
    simp
  · intro x hx
    rw [round_up_to_pow2]
    have h1 : x.natAbs < 2 ^ natBitLength x.natAbs := lt_two_pow_natBitLength _
    have h2 : ((2 : Int) ^ natBitLength x.natAbs) =
        ((2 ^ natBitLength x.natAbs : Nat) : Int) := by push_cast; ring
    omega

theorem C8_max_level_witness :
    (0 : Int) ≤ 64 ∧ (64 : Int) < round_up_to_pow2 64 :=
  ⟨by norm_num, C8_max_level.2.2.2 64 (by norm_num)⟩

/-- Color identity of a rendered segment: the intact (unsplit) color, or
the left/right palette chosen from `part.is_left` (`animate.py` uses
MAGENTA/BLUE/RED, `illustrate.py` uses `intact_color` / `left_color` /
`right_color`; only the identity matters to the animation logic). -/
inductive ColorClass where
  | intact : ColorClass
  | left : ColorClass
  | right : ColorClass
deriving DecidableEq

/-- One horizontal segment of a frame: the span `[start, end)` drawn at a
vertical level (pixel mapping is out of scope). -/
structure Segment where
  start : Int
  end_ : Int
  level : ℚ
  color : ColorClass
deriving DecidableEq

/-- One animation frame: the level state at which it was produced and its
segments (the spike/axis decorations are identical in every frame and out
of scope). -/
structure Frame where
  level : ℚ
  segments : List Segment
deriving DecidableEq

/-- `first_cut_level` (`animate.py` lines 125-127, `illustrate.py` lines
335-339): `as_level(first_cut_height)` with the infinity sentinel passed
through. -/
def first_cut_level (logarithmic : Bool) (split : Parts) : Option Int :=
  split.first_cut_height.map (as_level logarithmic)

/-- `intact = level > first_cut_level` (`animate.py` line 128,
`illustrate.py` line 340); a comparison with the `np.inf` sentinel is
always false. -/
def is_intact (logarithmic : Bool) (split : Parts) (level : ℚ) : Bool :=
  match first_cut_level logarithmic split with
  | none => false
  | some c => decide ((c : ℚ) < level)

/-- The body of the animation loop (`animate.py` lines 129-146,
`illustrate.py` lines 340-349): an intact frame is a single segment
spanning `[left, right)` at the current level; otherwise one segment per
part at `actual_level = max(level, as_level(part.height))`, colored from
`part.is_left`. -/
def render_frame (logarithmic : Bool) (left right : Int) (split : Parts)
    (level : ℚ) : Frame :=
  if is_intact logarithmic split level then
    ⟨level, [⟨left, right, level, ColorClass.intact⟩]⟩
  else
    ⟨level, split.parts.map (fun p =>
      ⟨p.start, p.end_, max level ((as_level logarithmic p.height : Int) : ℚ),
       if p.is_left then ColorClass.left else ColorClass.right⟩)⟩

/-- The frame loop of `animate` (`animate.py` lines 119-151):
`while level > 0`, yield a frame, then
`level -= level_step * (accelerate_intact if intact else 1)`.
The first `Nat` argument is fuel standing in for the missing termination
argument of the Python loop: `none` means the loop was still running
after `fuel` frames. -/
def animate_go (logarithmic : Bool) (left right : Int) (split : Parts)
    (level_step accelerate_intact : ℚ) : Nat → ℚ → Option (List Frame)
  | fuel, level =>
    if level ≤ 0 then some [] else
    match fuel with
    | 0 => none
    | fuel + 1 =>
      (animate_go logarithmic left right split level_step accelerate_intact fuel
        (level - level_step *
          (if is_intact logarithmic split level then accelerate_intact else 1))).map
        (fun fs => render_frame logarithmic left right split level :: fs)

/-- The frame loop of `Drawer.animate` (`illustrate.py` lines 329-354):
identical to `animate.py`'s except that the loop condition is
`while level >= 0` (so a frame is produced at level `0`). -/
def drawer_animate_go (logarithmic : Bool) (left right : Int) (split : Parts)
    (level_step accelerate_intact : ℚ) : Nat → ℚ → Option (List Frame)
  | fuel, level =>
    if level < 0 then some [] else
    match fuel with
    | 0 => none
    | fuel + 1 =>
      (drawer_animate_go logarithmic left right split level_step accelerate_intact fuel
        (level - level_step *
          (if is_intact logarithmic split level then accelerate_intact else 1))).map
        (fun fs => render_frame logarithmic left right split level :: fs)

theorem render_frame_level (logarithmic : Bool) (left right : Int) (split : Parts)
    (level : ℚ) : (render_frame logarithmic left right split level).level = level := by
  rw [render_frame]
  split <;> rfl

theorem animate_go_stop {logarithmic : Bool} {left right : Int} {split : Parts}
    {level_step accelerate_intact level : ℚ} (h : level ≤ 0) (fuel : Nat) :
    animate_go logarithmic left right split level_step accelerate_intact fuel level =
      some [] := by
  cases fuel <;> simp [animate_go, h]

theorem animate_go_continue {logarithmic : Bool} {left right : Int} {split : Parts}
    {level_step accelerate_intact level : ℚ} (h : ¬ level ≤ 0) (fuel : Nat) :
    animate_go logarithmic left right split level_step accelerate_intact (fuel + 1) level =
      (animate_go logarithmic left right split level_step accelerate_intact fuel
        (level - level_step *
          (if is_intact logarithmic split level then accelerate_intact else 1))).map
        (fun fs => render_frame logarithmic left right split level :: fs) := by
  rw [animate_go]
  simp [h]

theorem animate_go_out {logarithmic : Bool} {left right : Int} {split : Parts}
    {level_step accelerate_intact level : ℚ} (h : ¬ level ≤ 0) :
    animate_go logarithmic left right split level_step accelerate_intact 0 level = none := by
  rw [animate_go]
  simp [h]

/-- Sufficient fuel: once `level ≤ fuel * step`, the `animate.py` loop
(with `level_step > 0` and `accelerate_intact ≥ 1`) finishes within
`fuel` frames. -/
theorem animate_go_some (logarithmic : Bool) (left right : Int) (split : Parts)
    (level_step accelerate_intact : ℚ) (hs : 0 < level_step) (ha : 1 ≤ accelerate_intact) :
    ∀ (fuel : Nat) (level : ℚ), level ≤ fuel * level_step →
    ∃ fs, animate_go logarithmic left right split level_step accelerate_intact fuel level =
      some fs := by
  intro fuel
  induction fuel with
  | zero =>
    intro level hl
    norm_num at hl
    exact ⟨[], animate_go_stop hl _⟩
  | succ fuel ih =>
    intro level hl
    by_cases h0 : level ≤ 0
    · exact ⟨[], animate_go_stop h0 _⟩
    · have hm : 1 ≤ (if is_intact logarithmic split level then accelerate_intact else 1) := by
        split
        · exact ha
        · exact le_refl 1
      have hdec : level_step ≤ level_step *
          (if is_intact logarithmic split level then accelerate_intact else 1) := by
        nth_rewrite 1 [← mul_one level_step]
        exact mul_le_mul_of_nonneg_left hm hs.le
      have hl' : level - level_step *
          (if is_intact logarithmic split level then accelerate_intact else 1) ≤
          fuel * level_step := by
        push_cast at hl ⊢
        nlinarith
      obtain ⟨fs, hfs⟩ := ih _ hl'
      exact ⟨render_frame logarithmic left right split level :: fs, by
        rw [animate_go_continue h0 fuel, hfs]; rfl⟩

/-- Shape of any finished `animate.py` run: at most `⌈level / step⌉`
frames, every frame produced at a positive level not above the start
level, and the frame levels strictly decrease. -/
theorem animate_go_shape (logarithmic : Bool) (left right : Int) (split : Parts)
    (level_step accelerate_intact : ℚ) (hs : 0 < level_step) (ha : 1 ≤ accelerate_intact) :
    ∀ (fuel : Nat) (level : ℚ) (fs : List Frame),
    animate_go logarithmic left right split level_step accelerate_intact fuel level =
      some fs →
    fs.length ≤ (⌈level / level_step⌉).toNat ∧
    (∀ fr ∈ fs, 0 < fr.level ∧ fr.level ≤ level) ∧
    List.Pairwise (fun a b => b.level < a.level) fs := by
  intro fuel
  induction fuel with
  | zero =>
    intro level fs hfs
    by_cases h0 : level ≤ 0
    · rw [animate_go_stop h0 0] at hfs
      cases hfs
      simp
    · rw [animate_go_out h0] at hfs
      cases hfs
  | succ fuel ih =>
    intro level fs hfs
    by_cases h0 : level ≤ 0
    · rw [animate_go_stop h0 (fuel + 1)] at hfs
      cases hfs
      simp
    · rw [animate_go_continue h0 fuel] at hfs
      obtain ⟨fs', hfs', rfl⟩ := Option.map_eq_some'.1 hfs
      obtain ⟨hlen, hmem, hpair⟩ := ih _ _ hfs'
      have hpos : (0 : ℚ) < level := by linarith [not_le.1 h0]
      have hm : 1 ≤ (if is_intact logarithmic split level then accelerate_intact else 1) := by
        split
        · exact ha
        · exact le_refl 1
      have hdec : level_step ≤ level_step *
          (if is_intact logarithmic split level then accelerate_intact else 1) := by
        nth_rewrite 1 [← mul_one level_step]
        exact mul_le_mul_of_nonneg_left hm hs.le
      have hlev' : level - level_step *
          (if is_intact logarithmic split level then accelerate_intact else 1) ≤
          level - level_step := by linarith
      constructor
      · have hceil1 : ⌈(level - level_step *
            (if is_intact logarithmic split level then accelerate_intact else 1)) /
            level_step⌉ ≤ ⌈(level - level_step) / level_step⌉ :=
          Int.ceil_le_ceil (by gcongr)
        have hdiv : (level - level_step) / level_step = level / level_step - 1 := by
          field_simp
        have hceil2 : ⌈(level - level_step) / level_step⌉ = ⌈level / level_step⌉ - 1 := by
          rw [hdiv]
          exact_mod_cast Int.ceil_sub_int (level / level_step) 1
        have hceil3 : (0 : ℤ) < ⌈level / level_step⌉ :=
          Int.ceil_pos.mpr (div_pos hpos hs)
        simp only [List.length_cons]
        omega
      constructor
      · intro fr hfr
        rcases List.mem_cons.1 hfr with rfl | hfr'
        · rw [render_frame_level]
          exact ⟨hpos, le_refl _⟩
        · obtain ⟨hfr1, hfr2⟩ := hmem fr hfr'
          refine ⟨hfr1, by linarith⟩
      · rw [List.pairwise_cons]
        refine ⟨?_, hpair⟩
        intro b hb
        obtain ⟨_, hb2⟩ := hmem b hb
        rw [render_frame_level]
        have : 0 < level_step *
            (if is_intact logarithmic split level then accelerate_intact else 1) := by
          linarith
        linarith

/-- C6 counterexample: the claim quantifies only `levelStep > 0`, but the
loop decrement is `levelStep * accelerateIntact` while the frame is
intact.  With the legal parameter `accelerate_intact = 0` (and
`level_step = 1/2 > 0`, the decomposition of the valid range `(1, 1)`,
start level `8`) one step leaves the level unchanged, and the loop is
still running after `17 > ⌈8 / (1/2)⌉ = 16` frames, refuting both the
strict decrease and the `ceil(maxLevel / levelStep)` bound. -/
theorem C6_termination_cex :
    into_parts 1 1 = some ⟨[], some 1⟩ ∧
    is_intact false ⟨[], some 1⟩ 8 = true ∧
    (8 : ℚ) - (1 / 2) * 0 = 8 ∧
    animate_go false 1 1 ⟨[], some 1⟩ (1 / 2) 0 17 8 = none ∧
    ⌈(8 : ℚ) / (1 / 2)⌉ = 16 := by
  have hintact : is_intact false ⟨[], some 1⟩ (8 : ℚ) = true := by
    rw [is_intact, first_cut_level]
    simp [as_level]
  have hstuck : ∀ fuel : Nat, animate_go false 1 1 ⟨[], some 1⟩ (1 / 2) 0 fuel 8 = none := by
    intro fuel
    induction fuel with
    | zero => exact animate_go_out (by norm_num)
    | succ fuel ih =>
      rw [animate_go_continue (by norm_num) fuel, hintact]
      have harith : (8 : ℚ) - 1 / 2 * (if (true : Bool) then (0 : ℚ) else 1) = 8 := by
        norm_num
      rw [harith, ih]
      rfl
  refine ⟨by decide, hintact, by norm_num, hstuck 17, ?_⟩
  norm_num [Int.ceil_eq_iff]

/-- C6 as amended: for every `levelStep > 0` and `accelerateIntact ≥ 1`
(the defaults are `1` and `2`), the `animate.py` frame loop terminates:
`⌈maxLevel / levelStep⌉` frames of fuel always suffice, the produced
frame count is bounded by `⌈maxLevel / levelStep⌉`, the level strictly
decreases from frame to frame, and every frame is produced at a level in
`(0, maxLevel]` (the loop stops once the level reaches or crosses `0`;
`animate.py`'s `while level > 0` emits no frame at level `0`).  Without a
lower bound on `accelerateIntact` the loop need not terminate. -/
theorem C6_termination (logarithmic : Bool) (left right : Int) (split : Parts)
    (level_step accelerate_intact maxLevel : ℚ)
    (hs : 0 < level_step) (ha : 1 ≤ accelerate_intact) :
    ∃ fs, animate_go logarithmic left right split level_step accelerate_intact
        (⌈maxLevel / level_step⌉).toNat maxLevel = some fs ∧
      fs.length ≤ (⌈maxLevel / level_step⌉).toNat ∧
      (∀ fr ∈ fs, 0 < fr.level ∧ fr.level ≤ maxLevel) ∧
      List.Pairwise (fun a b => b.level < a.level) fs := by
  have hsuff : maxLevel ≤ ((⌈maxLevel / level_step⌉).toNat : ℚ) * level_step := by
    by_cases h : maxLevel ≤ 0
    · have h1 : (0 : ℚ) ≤ ((⌈maxLevel / level_step⌉).toNat : ℚ) * level_step := by
        positivity
      linarith
    · push_neg at h
      have h1 : maxLevel / level_step ≤ (⌈maxLevel / level_step⌉ : ℚ) := Int.le_ceil _
      have h2 : (0 : ℤ) < ⌈maxLevel / level_step⌉ := Int.ceil_pos.mpr (div_pos h hs)
      have h3 : ((⌈maxLevel / level_step⌉).toNat : ℚ) = (⌈maxLevel / level_step⌉ : ℚ) := by
        have := Int.toNat_of_nonneg h2.le
        exact_mod_cast congrArg (fun z : ℤ => (z : ℚ)) this
      rw [h3]
      calc maxLevel = (maxLevel / level_step) * level_step := by field_simp
        _ ≤ (⌈maxLevel / level_step⌉ : ℚ) * level_step :=
          mul_le_mul_of_nonneg_right h1 hs.le
  obtain ⟨fs, hfs⟩ := animate_go_some logarithmic left right split level_step
    accelerate_intact hs ha _ maxLevel hsuff
  obtain ⟨hlen, hmem, hpair⟩ := animate_go_shape logarithmic left right split level_step
    accelerate_intact hs ha _ maxLevel fs hfs
  exact ⟨fs, hfs, hlen, hmem, hpair⟩

theorem C6_termination_witness :
    (0 : ℚ) < 1 / 2 ∧ (1 : ℚ) ≤ 2 ∧
    ∃ fs, animate_go true 9 29 ⟨[], some 1⟩ (1 / 2) 2
        (⌈(3 : ℚ) / (1 / 2)⌉).toNat 3 = some fs ∧
      fs.length ≤ (⌈(3 : ℚ) / (1 / 2)⌉).toNat ∧
      (∀ fr ∈ fs, 0 < fr.level ∧ fr.level ≤ 3) ∧
      List.Pairwise (fun a b => b.level < a.level) fs :=
  ⟨by norm_num, by norm_num,
    C6_termination true 9 29 ⟨[], some 1⟩ (1 / 2) 2 3 (by norm_num) (by norm_num)⟩

theorem drawer_go_stop {logarithmic : Bool} {left right : Int} {split : Parts}
    {level_step accelerate_intact level : ℚ} (h : level < 0) (fuel : Nat) :
    drawer_animate_go logarithmic left right split level_step accelerate_intact fuel level =
      some [] := by
  cases fuel <;> simp [drawer_animate_go, h]

theorem drawer_go_continue {logarithmic : Bool} {left right : Int} {split : Parts}
    {level_step accelerate_intact level : ℚ} (h : ¬ level < 0) (fuel : Nat) :
    drawer_animate_go logarithmic left right split level_step accelerate_intact
        (fuel + 1) level =
      (drawer_animate_go logarithmic left right split level_step accelerate_intact fuel
        (level - level_step *
          (if is_intact logarithmic split level then accelerate_intact else 1))).map
        (fun fs => render_frame logarithmic left right split level :: fs) := by
  rw [drawer_animate_go]
  simp [h]

theorem drawer_go_out {logarithmic : Bool} {left right : Int} {split : Parts}
    {level_step accelerate_intact level : ℚ} (h : ¬ level < 0) :
    drawer_animate_go logarithmic left right split level_step accelerate_intact 0 level =
      none := by
  rw [drawer_animate_go]
  simp [h]

/-- Sufficient fuel for the `Drawer.animate` loop: `level < fuel * step`
suffices when `level_step > 0` and `accelerate_intact ≥ 1`. -/
theorem drawer_go_some (logarithmic : Bool) (left right : Int) (split : Parts)
    (level_step accelerate_intact : ℚ) (hs : 0 < level_step) (ha : 1 ≤ accelerate_intact) :
    ∀ (fuel : Nat) (level : ℚ), level < fuel * level_step →
    ∃ fs, drawer_animate_go logarithmic left right split level_step accelerate_intact
      fuel level = some fs := by
  intro fuel
  induction fuel with
  | zero =>
    intro level hl
    norm_num at hl
    exact ⟨[], drawer_go_stop hl _⟩
  | succ fuel ih =>
    intro level hl
    by_cases h0 : level < 0
    · exact ⟨[], drawer_go_stop h0 _⟩
    · have hm : 1 ≤ (if is_intact logarithmic split level then accelerate_intact else 1) := by
        split
        · exact ha
        · exact le_refl 1
      have hdec : level_step ≤ level_step *
          (if is_intact logarithmic split level then accelerate_intact else 1) := by
        nth_rewrite 1 [← mul_one level_step]
        exact mul_le_mul_of_nonneg_left hm hs.le
      have hl' : level - level_step *
          (if is_intact logarithmic split level then accelerate_intact else 1) <
          fuel * level_step := by
        push_cast at hl ⊢
        nlinarith
      obtain ⟨fs, hfs⟩ := ih _ hl'
      exact ⟨render_frame logarithmic left right split level :: fs, by
        rw [drawer_go_continue h0 fuel, hfs]; rfl⟩

/-- Every frame of a finished `Drawer.animate` run is the rendering of the
loop body at that frame's own level. -/
theorem drawer_go_frames (logarithmic : Bool) (left right : Int) (split : Parts)
    (level_step accelerate_intact : ℚ) :
    ∀ (fuel : Nat) (level : ℚ) (fs : List Frame),
    drawer_animate_go logarithmic left right split level_step accelerate_intact fuel level =
      some fs →
    ∀ fr ∈ fs, fr = render_frame logarithmic left right split fr.level := by
  intro fuel
  induction fuel with
  | zero =>
    intro level fs hfs fr hfr
    by_cases h0 : level < 0
    · rw [drawer_go_stop h0 0] at hfs
      cases hfs
      simp at hfr
    · rw [drawer_go_out h0] at hfs
      cases hfs
  | succ fuel ih =>
    intro level fs hfs fr hfr
    by_cases h0 : level < 0
    · rw [drawer_go_stop h0 (fuel + 1)] at hfs
      cases hfs
      simp at hfr
    · rw [drawer_go_continue h0 fuel] at hfs
      obtain ⟨fs', hfs', rfl⟩ := Option.map_eq_some'.1 hfs
      rcases List.mem_cons.1 hfr with rfl | hfr'
      · rw [render_frame_level]
      · exact ih _ _ hfs' fr hfr'

/-- With `accelerate_intact = 1` the decrement is `level_step` on every
step, so a finished run from `level` contains the frame rendered at
`level - k * level_step` for every `k` that keeps that value
non-negative. -/
theorem drawer_go_mem (logarithmic : Bool) (left right : Int) (split : Parts)
    (level_step : ℚ) (hs : 0 < level_step) :
    ∀ (k fuel : Nat) (level : ℚ) (fs : List Frame),
    drawer_animate_go logarithmic left right split level_step 1 fuel level = some fs →
    0 ≤ level - k * level_step →
    render_frame logarithmic left right split (level - k * level_step) ∈ fs := by
  intro k
  induction k with
  | zero =>
    intro fuel level fs hfs hk
    norm_num at hk
    have h0 : ¬ level < 0 := by linarith
    cases fuel with
    | zero => rw [drawer_go_out h0] at hfs; cases hfs
    | succ fuel =>
      rw [drawer_go_continue h0 fuel] at hfs
      obtain ⟨fs', _, rfl⟩ := Option.map_eq_some'.1 hfs
      norm_num
  | succ k ih =>
    intro fuel level fs hfs hk
    have hk' : (0 : ℚ) ≤ level := by
      have hp : (0 : ℚ) < ((k : ℚ) + 1) * level_step := by positivity
      push_cast at hk
      nlinarith
    have h0 : ¬ level < 0 := by linarith
    cases fuel with
    | zero => rw [drawer_go_out h0] at hfs; cases hfs
    | succ fuel =>
      rw [drawer_go_continue h0 fuel] at hfs
      obtain ⟨fs', hfs', rfl⟩ := Option.map_eq_some'.1 hfs
      have hone : (if is_intact logarithmic split level then (1 : ℚ) else 1) = 1 :=
        ite_self 1
      rw [hone, mul_one] at hfs'
      have harg : level - level_step - k * level_step = level - (k + 1 : Nat) * level_step := by
        push_cast
        ring
      have hmem := ih fuel (level - level_step) fs' hfs' (by rw [harg]; exact hk)
      rw [harg] at hmem
      exact List.mem_cons_of_mem _ hmem

/-- The decomposition of `(9, 29)` as computed by `illustrate.py`
(`Drawer._into_parts`); proven equal to `Illustrate.into_parts 9 29` in
the C7 theorems. -/
def split_9_29_illustrate : Parts :=
  ⟨[⟨9, 10, 1, false⟩, ⟨10, 12, 2, false⟩, ⟨12, 16, 4, false⟩,
    ⟨16, 24, 8, true⟩, ⟨24, 28, 4, true⟩, ⟨28, 29, 1, true⟩], some 16⟩

/-- C7 counterexample: in the level-0 frame for the `(9, 29)`
decomposition (logarithmic mode), the segment for the part `(16,24,h=8)`
is drawn at `effectiveLevel = max(0, asLevel(8)) = bitLength(8) = 4`, not
`3` as the claim states (`asLevel` is the bit length, and
`bitLength(8) = 4`). -/
theorem C7_effective_level_cex :
    Illustrate.into_parts 9 29 = some split_9_29_illustrate ∧
    as_level true 8 = 4 ∧
    render_frame true 9 29 split_9_29_illustrate 0 =
      ⟨0, [⟨9, 10, 1, ColorClass.right⟩, ⟨10, 12, 2, ColorClass.right⟩,
           ⟨12, 16, 3, ColorClass.right⟩, ⟨16, 24, 4, ColorClass.left⟩,
           ⟨24, 28, 3, ColorClass.left⟩, ⟨28, 29, 1, ColorClass.left⟩]⟩ ∧
    ¬ ((4 : ℚ) = 3) := by
  have h5 : as_level true 16 = 5 := by decide
  have hintact : is_intact true split_9_29_illustrate 0 = false := by
    rw [is_intact, first_cut_level]
    simp [split_9_29_illustrate, h5]
  have hb1 : as_level true 1 = 1 := by decide
  have hb2 : as_level true 2 = 2 := by decide
  have hb4 : as_level true 4 = 3 := by decide
  have hb8 : as_level true 8 = 4 := by decide
  refine ⟨by decide, hb8, ?_, by norm_num⟩
  rw [render_frame, hintact]
  simp [split_9_29_illustrate, hb1, hb2, hb4, hb8]

/-- C7 as amended: every frame of a `Drawer.animate` run renders each
part at `effectiveLevel = max(level, asLevel(part.height))` (it equals
the loop body `render_frame` at its own level); for the `(9, 29)`
decomposition in logarithmic mode (`maxLevel = 7`, the script's
`level_step = 1/4`, `accelerate_intact = 1`) the run produces the frame
at level `0`, in which the part `(28,29,h=1)` is drawn at effective
level `1` and the part `(16,24,h=8)` at effective level `4` (not `3`:
`asLevel` is the bit length and `bitLength(8) = 4`). -/
theorem C7_level0_frame :
    (∀ (logarithmic : Bool) (left right : Int) (split : Parts)
        (level_step accelerate_intact : ℚ) (fuel : Nat) (level : ℚ)
        (fs : List Frame) (fr : Frame),
      drawer_animate_go logarithmic left right split level_step accelerate_intact
          fuel level = some fs →
      fr ∈ fs → fr = render_frame logarithmic left right split fr.level) ∧
    Illustrate.into_parts 9 29 = some split_9_29_illustrate ∧
    (∃ fs, drawer_animate_go true 9 29 split_9_29_illustrate (1 / 4) 1 30 7 = some fs ∧
      render_frame true 9 29 split_9_29_illustrate 0 ∈ fs) ∧
    render_frame true 9 29 split_9_29_illustrate 0 =
      ⟨0, [⟨9, 10, 1, ColorClass.right⟩, ⟨10, 12, 2, ColorClass.right⟩,
           ⟨12, 16, 3, ColorClass.right⟩, ⟨16, 24, 4, ColorClass.left⟩,
           ⟨24, 28, 3, ColorClass.left⟩, ⟨28, 29, 1, ColorClass.left⟩]⟩ := by
  refine ⟨?_, by decide, ?_, ?_⟩
  · intro logarithmic left right split level_step accelerate_intact fuel level fs fr hfs hfr
    exact drawer_go_frames logarithmic left right split level_step accelerate_intact
      fuel level fs hfs fr hfr
  · obtain ⟨fs, hfs⟩ := drawer_go_some true 9 29 split_9_29_illustrate (1 / 4) 1
      (by norm_num) (le_refl 1) 30 7 (by norm_num)
    refine ⟨fs, hfs, ?_⟩
    have hmem := drawer_go_mem true 9 29 split_9_29_illustrate (1 / 4) (by norm_num)
      28 30 7 fs hfs (by norm_num)
    have harg : (7 : ℚ) - (28 : Nat) * (1 / 4) = 0 := by norm_num
    rw [harg] at hmem
    exact hmem
  · have h5 : as_level true 16 = 5 := by decide
    have hintact : is_intact true split_9_29_illustrate 0 = false := by
      rw [is_intact, first_cut_level]
      simp [split_9_29_illustrate, h5]
    have hb1 : as_level true 1 = 1 := by decide
    have hb2 : as_level true 2 = 2 := by decide
    have hb4 : as_level true 4 = 3 := by decide
    have hb8 : as_level true 8 = 4 := by decide
    rw [render_frame, hintact]
    simp [split_9_29_illustrate, hb1, hb2, hb4, hb8]

theorem C7_level0_frame_witness :
    drawer_animate_go true 9 29 split_9_29_illustrate 1 1 2 0 =
      some [render_frame true 9 29 split_9_29_illustrate 0] ∧
    render_frame true 9 29 split_9_29_illustrate 0 =
      render_frame true 9 29 split_9_29_illustrate
        ((render_frame true 9 29 split_9_29_illustrate 0).level) := by
  have hrun : drawer_animate_go true 9 29 split_9_29_illustrate 1 1 2 0 =
      some [render_frame true 9 29 split_9_29_illustrate 0] := by
    rw [drawer_go_continue (by norm_num) 1]
    have harith : (0 : ℚ) - 1 * (if is_intact true split_9_29_illustrate 0 then (1 : ℚ)
        else 1) = -1 := by
      rw [ite_self]
      norm_num
    rw [harith, drawer_go_stop (by norm_num) 1]
    rfl
  exact ⟨hrun, C7_level0_frame.1 true 9 29 split_9_29_illustrate 1 1 2 0
    [render_frame true 9 29 split_9_29_illustrate 0]
    (render_frame true 9 29 split_9_29_illustrate 0) hrun (List.mem_cons_self _ _)⟩

/-- A Python value flowing through the default-argument logic: an `int`
or `None`. -/
inductive PyVal where
  | pynone : PyVal
  | pyint : Int → PyVal
deriving DecidableEq

/-- The Python exceptions the modelled lines can raise. -/
inductive PyErr where
  | typeError : PyErr
  | attributeError : PyErr
  | zeroDivisionError : PyErr
deriving DecidableEq

/-- Python `*`: a `TypeError` unless both operands are ints. -/
def py_mul : PyVal → PyVal → Except PyErr PyVal
  | .pyint a, .pyint b => .ok (.pyint (a * b))
  | _, _ => .error .typeError

/-- Python `-`: a `TypeError` unless both operands are ints. -/
def py_sub : PyVal → PyVal → Except PyErr PyVal
  | .pyint a, .pyint b => .ok (.pyint (a - b))
  | _, _ => .error .typeError

/-- Python `&`: a `TypeError` unless both operands are ints. -/
def py_and : PyVal → PyVal → Except PyErr PyVal
  | .pyint a, .pyint b => .ok (.pyint (Int.land a b))
  | _, _ => .error .typeError

/-- Python `//` (floor division). -/
def py_floordiv : PyVal → PyVal → Except PyErr PyVal
  | .pyint a, .pyint b =>
    if b = 0 then .error .zeroDivisionError else .ok (.pyint (Int.fdiv a b))
  | _, _ => .error .typeError

/-- Python truthiness of the values involved: `None` and `0` are falsy. -/
def py_truthy : PyVal → Bool
  | .pynone => false
  | .pyint n => decide (¬ n = 0)

/-- The inner `as_level` of `animate.py` on a dynamic value: in
logarithmic mode `x.bit_length()` raises `AttributeError` on `None`; in
linear mode the value (including `None`) is returned unchanged. -/
def py_as_level (logarithmic : Bool) (x : PyVal) : Except PyErr PyVal :=
  if logarithmic then
    match x with
    | .pyint n => .ok (.pyint (bit_length n))
    | .pynone => .error .attributeError
  else .ok x

/-- `animate.py` line 72:
`height = height or width * as_level(max_position) // max_position`. -/
def animate_height_default (logarithmic : Bool) (width height max_position : PyVal) :
    Except PyErr PyVal :=
  if py_truthy height then .ok height
  else do
    let lv ← py_as_level logarithmic max_position
    let prod ← py_mul width lv
    py_floordiv prod max_position

/-- `animate.py` lines 72-74: the `height` default is computed first
(line 72), and only afterwards is a `None` `max_position` replaced by
`round_up_to_pow2(right)` (lines 73-74). -/
def animate_defaults (logarithmic : Bool) (right : Int)
    (width height max_position : PyVal) : Except PyErr (PyVal × PyVal) := do
  let h ← animate_height_default logarithmic width height max_position
  let mp := match max_position with
    | .pynone => PyVal.pyint (round_up_to_pow2 right)
    | x => x
  .ok (h, mp)

/-- `Drawer._round_up_to_pow2` on a dynamic value: evaluates
`x & (x - 1)` (which raises `TypeError` on `None` when computing
`x - 1`), then either returns `x` or `1 << x.bit_length()`. -/
def py_round_up_to_pow2 (x : PyVal) : Except PyErr PyVal := do
  let xm1 ← py_sub x (.pyint 1)
  let t ← py_and x xm1
  if t = PyVal.pyint 0 then .ok x
  else match x with
    | .pyint n => .ok (.pyint (2 ^ natBitLength n.natAbs))
    | .pynone => .error .attributeError

/-- `illustrate.py` line 52, the first use of `max_position` in
`Drawer.__init__`:
`self.max_level = self._as_level(self._round_up_to_pow2(self.max_position))`. -/
def drawer_init_max_level (logarithmic : Bool) (max_position : PyVal) :
    Except PyErr PyVal := do
  let ru ← py_round_up_to_pow2 max_position
  py_as_level logarithmic ru

/-- C10 (confirmed): `max_position` is effectively mandatory at both
entry points.  `animate(left, right)` with `max_position` and `height`
both left at their `None` defaults raises `TypeError` for every `right`:
line 72 computes `width * as_level(None)` (linear-mode `as_level` passes
`None` through, and `int * None` is a `TypeError`) before line 73's
`None` check could substitute `round_up_to_pow2(right)`.  Constructing
`Drawer(max_position=None)` (logarithmic defaults to `False`) raises
`TypeError` inside `_round_up_to_pow2` when `x & (x - 1)` evaluates
`None - 1`. -/
theorem C10_max_position_mandatory :
    (∀ right : Int, animate_defaults false right (.pyint 1024) .pynone .pynone =
      .error .typeError) ∧
    drawer_init_max_level false .pynone = .error .typeError := by
  exact ⟨fun _ => rfl, rfl⟩

end Fenwick
